import Mathlib

/-!
Verification of the Collector repository's collection engine against its
specification.  The Python sources under `src/core` are shallowly embedded:

* `path_sanitizer.py`  → `sanitize_path`, `validate_path_traversal`, `resolve_path`
* `file_filter.py`     → `FileFilter.match` / `filter_files` with the memo cache
* `progress_tracker.py`→ `Tracker`, `setTotalT`, increment / flush as a step
  relation on tracker states (`runT` over operation traces)
* `worker_pool.py`     → `calcOptimalWorkers`, `createBatches`, `executePool`
* `collection_service.py` → `collectReport` (result assembly of `collect()`)

Modelling conventions: the host platform is POSIX/Linux (the platform the
repository's `security_constants.get_dangerous_chars` / `get_reserved_names`
branch on when not on Windows); paths are symlink-free, so `Path.resolve()`
and `os.path.abspath(os.path.normpath(...))` coincide and are modelled by
lexical `..`-collapse against a current working directory; Python `float`
intervals (0.01 / 0.1 / 0.5 seconds) are modelled as the exact rationals they
denote; thread interleavings are modelled as traces of atomic operations,
which is faithful because a thread-local counter is touched only by its
owning thread and the shared-counter merge happens under one lock.
-/

/-! ## POSIX path model (pathlib.PurePosixPath / os.path, symlink-free) -/

/-- A POSIX path as `pathlib` sees it: an absolute-flag plus the non-empty,
non-`"."` components (Python's `PurePosixPath.parts` drops empty components
and single dots but keeps `".."`). -/
structure PosixPath where
  absolute : Bool
  segments : List String
  deriving DecidableEq, Repr

/-- Split a character list at every occurrence of `sep` (Python
`str.split(sep)` semantics: `n` separators yield `n+1` pieces). -/
def splitOnChar (sep : Char) : List Char → List (List Char)
  | [] => [[]]
  | c :: rest =>
    let tailPieces := splitOnChar sep rest
    if c = sep then [] :: tailPieces
    else match tailPieces with
      | [] => [[c]]
      | piece :: more => (c :: piece) :: more

/-- Does the string start with `/` (`os.path.isabs` on POSIX)? -/
def startsWithSlash (s : String) : Bool :=
  match s.data with
  | '/' :: _ => true
  | _ => false

/-- Parse a raw string the way `pathlib.PurePosixPath` does: split on `/`,
drop empty components and `"."`, record whether the path is absolute.
A backslash is an ordinary filename character on POSIX. -/
def posixParse (s : String) : PosixPath :=
  { absolute := startsWithSlash s
    segments := ((splitOnChar '/' s.data).map String.mk).filter (fun c => c ≠ "" && c ≠ ".") }

/-- Python's `Path(p).parts`: the root `"/"` is itself a leading part of an
absolute path, followed by the components. -/
def pyParts (p : PosixPath) : List String :=
  (if p.absolute then ["/"] else []) ++ p.segments

/-- Interleave the pieces with the separator (inverse of `splitOnChar`). -/
def joinWithChar (sep : Char) : List (List Char) → List Char
  | [] => []
  | [piece] => piece
  | piece :: more => piece ++ sep :: joinWithChar sep more

/-- `str(path)` for the model (Python prints `Path("")` as `"."`). -/
def pathStr (p : PosixPath) : String :=
  if p.segments.isEmpty then (if p.absolute then "/" else ".")
  else (if p.absolute then "/" else "") ++ String.mk (joinWithChar '/' (p.segments.map String.data))

/-- `PurePath.name`: the final component, `""` for the root or the empty
relative path. -/
def pathName (p : PosixPath) : String :=
  (p.segments.getLast?).getD ""

/-- `Path.__truediv__`: joining with an absolute right operand replaces the
left operand, otherwise the components are appended. -/
def pathJoin (a : PosixPath) (b : PosixPath) : PosixPath :=
  if b.absolute then b else { absolute := a.absolute, segments := a.segments ++ b.segments }

/-- Lexical `..`-collapse of an absolute segment list: `".."` pops the last
collected segment (clamping at the root, as `normpath` does on `/`), any
other segment is appended.  In the symlink-free model this is what both
`os.path.normpath`+`abspath` and `Path.resolve()` compute. -/
def collapseAbs (segs : List String) : List String :=
  segs.foldl (fun acc seg => if seg = ".." then acc.dropLast else acc ++ [seg]) []

/-- `Path.resolve()` in the symlink-free model: make the path absolute
against the current working directory `cwd` (given as resolved segments) and
collapse `".."` lexically. -/
def resolveM (cwd : List String) (p : PosixPath) : List String :=
  collapseAbs (if p.absolute then p.segments else cwd ++ p.segments)

/-! ## security_constants.py (POSIX branch) -/

/-- `LINUX_MACOS_DANGEROUS_CHARS = ["<", ">", '"', "|", "?", "*", "\x00"]`. -/
def dangerousChars : List Char := ['<', '>', '"', '|', '?', '*', '\x00']

/-- `LINUX_MACOS_RESERVED_NAMES = {".", ".."}`. -/
def reservedPosix : List String := [".", ".."]

/-- `MAX_PATH_LENGTH = 4096`. -/
def MAX_PATH_LENGTH : Nat := 4096

/-- A path component contains one of the dangerous characters. -/
def hasDangerousChar (part : String) : Bool :=
  dangerousChars.any (fun c => part.data.contains c)

/-! ## path_sanitizer.py -/

/-- `sanitize_path(path)`: reject over-long paths, dangerous characters in
any component, and reserved component names; otherwise return the normalized
absolute path `Path(os.path.abspath(os.path.normpath(path)))`, modelled as
resolved absolute segments. -/
def sanitize_path (cwd : List String) (path : String) : Except String (List String) :=
  if path.length > MAX_PATH_LENGTH then
    .error "Path exceeds maximum length"
  else if (pyParts (posixParse path)).any hasDangerousChar then
    .error "Dangerous character detected in path component"
  else if (pyParts (posixParse path)).any (fun part => reservedPosix.contains part) then
    .error "Reserved name detected"
  else
    .ok (resolveM cwd (posixParse path))

/-- `validate_path_traversal(path, base_dir)`: resolve both and test
`path.is_relative_to(base)`, i.e. the resolved base's parts are a prefix of
the resolved path's parts.  (The `os.path.commonpath` fallback only runs on
Python < 3.9 and is not modelled.) -/
def validate_path_traversal (cwd : List String) (path : PosixPath) (base : PosixPath) : Bool :=
  (resolveM cwd base).isPrefixOf (resolveM cwd path)

/-- `"sub" in s` membership test on Python strings. -/
def containsSub (s : String) (pat : String) : Bool :=
  decide (pat.data <:+: s.data)

/-- `relative.replace("\\", "/")`. -/
def backslashesToSlashes (s : String) : String :=
  String.mk (s.data.map (fun c => if c = '\\' then '/' else c))

/-- `resolve_path(base, relative)`: sanitize the base, reject an absolute
`relative`, run the backslash-style and slash-style traversal pre-checks,
then resolve `base / relative` and require it to stay within the sanitized
base. -/
def resolve_path (cwd : List String) (base : String) (relative : String) :
    Except String PosixPath :=
  match sanitize_path cwd base with
  | .error e => .error e
  | .ok baseN =>
    -- os.path.isabs on POSIX
    if startsWithSlash relative then .error "Absolute paths are not allowed"
    else
      let basePath : PosixPath := ⟨true, baseN⟩
      let normForCheck := backslashesToSlashes relative
      -- relative_has_backslashes_checked in the source
      let bsChecked := containsSub relative "\\" && containsSub normForCheck ".."
      if bsChecked &&
          !(validate_path_traversal cwd (pathJoin basePath (posixParse normForCheck)) basePath) then
        .error "Path traversal detected"
      else if !bsChecked && containsSub relative ".." &&
          !(validate_path_traversal cwd (pathJoin basePath (posixParse relative)) basePath) then
        .error "Path traversal detected"
      else
        -- resolved = (base_normalized / relative).resolve()
        let resolved : PosixPath := ⟨true, collapseAbs (baseN ++ (posixParse relative).segments)⟩
        if validate_path_traversal cwd resolved basePath then .ok resolved
        else .error "Resolved path is outside base directory"

/-! Basic lemmas about `collapseAbs`. -/

theorem collapseAbs_go_no_dotdot (segs : List String) (acc : List String)
    (hacc : ".." ∉ acc) :
    ".." ∉ segs.foldl (fun acc seg => if seg = ".." then acc.dropLast else acc ++ [seg]) acc := by
  induction segs generalizing acc with
  | nil => exact hacc
  | cons seg rest ih =>
    simp only [List.foldl_cons]
    by_cases hseg : seg = ".."
    · simp only [hseg, if_pos rfl]
      exact ih _ (fun hmem => hacc (List.dropLast_subset _ hmem))
    · simp only [if_neg hseg]
      refine ih _ ?_
      intro hmem
      rcases List.mem_append.1 hmem with h | h
      · exact hacc h
      · simp at h; exact hseg h.symm

theorem collapseAbs_no_dotdot (segs : List String) : ".." ∉ collapseAbs segs :=
  collapseAbs_go_no_dotdot segs [] (by simp)

theorem collapseAbs_go_id (segs : List String) (acc : List String)
    (h : ".." ∉ segs) :
    segs.foldl (fun acc seg => if seg = ".." then acc.dropLast else acc ++ [seg]) acc
      = acc ++ segs := by
  induction segs generalizing acc with
  | nil => simp
  | cons seg rest ih =>
    simp only [List.mem_cons, not_or] at h
    have hne : ¬ seg = ".." := by
      intro hc
      exact h.1 hc.symm
    simp only [List.foldl_cons, if_neg hne]
    rw [ih _ h.2]
    simp

theorem collapseAbs_id (segs : List String) (h : ".." ∉ segs) : collapseAbs segs = segs := by
  simpa using collapseAbs_go_id segs [] h

theorem collapseAbs_idem (segs : List String) :
    collapseAbs (collapseAbs segs) = collapseAbs segs :=
  collapseAbs_id _ (collapseAbs_no_dotdot segs)

theorem sanitize_path_ok_eq (cwd : List String) (path : String) (segs : List String)
    (h : sanitize_path cwd path = .ok segs) : segs = resolveM cwd (posixParse path) := by
  unfold sanitize_path at h
  split_ifs at h
  simp_all

/-- The `resolve()` of an already-resolved absolute path is itself. -/
theorem resolveM_mk_true (cwd : List String) (segs : List String) :
    resolveM cwd ⟨true, segs⟩ = collapseAbs segs := by
  simp [resolveM]

theorem resolveM_resolveM (cwd : List String) (p : PosixPath) :
    resolveM cwd ⟨true, resolveM cwd p⟩ = resolveM cwd p := by
  rw [resolveM_mk_true]
  simp only [resolveM]
  exact collapseAbs_idem _

/-- C4: for every base and relative, `resolve_path` either returns a path
that `validate_path_traversal` places within the base, or fails with a
security error; in particular an absolute `relative` always fails. -/
theorem c4_resolve_within (cwd : List String) (base relative : String) :
    (∀ P, resolve_path cwd base relative = .ok P →
        validate_path_traversal cwd P (posixParse base) = true) ∧
    (startsWithSlash relative = true →
        ∃ e, resolve_path cwd base relative = .error e) := by
  constructor
  · intro P hP
    unfold resolve_path at hP
    cases hsan : sanitize_path cwd base with
    | error e => rw [hsan] at hP; exact absurd hP (by simp)
    | ok baseN =>
      rw [hsan] at hP
      have hbase : baseN = resolveM cwd (posixParse base) :=
        sanitize_path_ok_eq _ _ _ hsan
      simp only at hP
      split_ifs at hP with h1 h2 h3 h4
      injection hP with hPeq
      subst hPeq
      have hbase' : resolveM cwd ⟨true, baseN⟩ = baseN := by
        rw [hbase]
        exact resolveM_resolveM cwd (posixParse base)
      unfold validate_path_traversal at h4 ⊢
      rw [hbase'] at h4
      rw [← hbase]
      exact h4
  · intro habs
    unfold resolve_path
    cases hsan : sanitize_path cwd base with
    | error e => exact ⟨e, rfl⟩
    | ok baseN =>
      exact ⟨"Absolute paths are not allowed", by simp [habs]⟩

/-- C10: a base whose string form is over-long, or that has a component with
a dangerous character or a reserved component name, makes `resolve_path`
fail for every `relative` (the base is sanitized before `relative` is even
inspected). -/
theorem c10_base_sanitized (cwd : List String) (base relative : String)
    (h : base.length > MAX_PATH_LENGTH
      ∨ (pyParts (posixParse base)).any hasDangerousChar = true
      ∨ (pyParts (posixParse base)).any (fun part => reservedPosix.contains part) = true) :
    ∃ e, resolve_path cwd base relative = .error e := by
  have hsan : ∃ e, sanitize_path cwd base = .error e := by
    unfold sanitize_path
    split_ifs with h1 h2 h3
    · exact ⟨_, rfl⟩
    · exact ⟨_, rfl⟩
    · exact ⟨_, rfl⟩
    · exfalso
      rcases h with h | h | h
      · exact h1 h
      · exact h2 h
      · exact h3 h
  obtain ⟨e, he⟩ := hsan
  refine ⟨e, ?_⟩
  unfold resolve_path
  rw [he]

/-- Witness for C4 at concrete inputs: a relative path inside the base
resolves within it, and an absolute relative is rejected. -/
theorem c4_resolve_within_witness :
    validate_path_traversal ["home"] ⟨true, ["base", "sub", "file.txt"]⟩ (posixParse "/base") = true
    ∧ ∃ e, resolve_path ["home"] "/base" "/etc/passwd" = .error e :=
  ⟨(c4_resolve_within ["home"] "/base" "sub/file.txt").1
      ⟨true, ["base", "sub", "file.txt"]⟩ rfl,
    (c4_resolve_within ["home"] "/base" "/etc/passwd").2 rfl⟩

/-- Witness for C10 at a concrete input: a base containing `*` makes
`resolve_path` fail even for a harmless relative. -/
theorem c10_base_sanitized_witness :
    ∃ e, resolve_path ["home"] "/tmp/ba*d" "file.txt" = .error e :=
  c10_base_sanitized ["home"] "/tmp/ba*d" "file.txt" (Or.inr (Or.inl (by decide)))

/-! ## fnmatch-style glob matching (file_filter._match_glob)

`fnmatch.fnmatch(name, pat)` on POSIX (`os.path.normcase` is the identity):
`*` matches any sequence, `?` any single character, `[...]` a character
class (leading `!` negates; a `]` placed first is literal; `a-b` is a
range; an unmatched `[` is a literal `[`), anything else is literal. -/

/-- Scan a class body up to the closing `]`; returns the accumulated body
and the remaining pattern, or `none` if the class is unterminated. -/
def scanClass (acc : List Char) : List Char → Option (List Char × List Char)
  | [] => none
  | ']' :: rest => some (acc.reverse, rest)
  | c :: rest => scanClass (c :: acc) rest

/-- Split the pattern right after a `[` into (negated?, class body, rest). -/
def splitClass (cs : List Char) : Option (Bool × List Char × List Char) :=
  match cs with
  | '!' :: ']' :: t => (scanClass [']'] t).map (fun pr => (true, pr.1, pr.2))
  | '!' :: t => (scanClass [] t).map (fun pr => (true, pr.1, pr.2))
  | ']' :: t => (scanClass [']'] t).map (fun pr => (false, pr.1, pr.2))
  | t => (scanClass [] t).map (fun pr => (false, pr.1, pr.2))

/-- Turn a class body into (lo, hi) ranges: `a-b` is a range, anything else
(including a leading or trailing `-`) is a singleton. -/
def classItems : List Char → List (Char × Char)
  | [] => []
  | a :: '-' :: b :: rest => (a, b) :: classItems rest
  | a :: rest => (a, a) :: classItems rest

/-- Character membership in a list of ranges. -/
def inClassItems (items : List (Char × Char)) (c : Char) : Bool :=
  items.any (fun pr => decide (pr.1 ≤ c) && decide (c ≤ pr.2))

/-- Shell-glob matching of a whole name against a pattern (the translation
of `fnmatch.translate`'s regex, executed directly).  The fuel argument only
drives structural recursion: every recursive call strictly decreases
`pattern.length + name.length`, so `globMatch` below always supplies enough. -/
def globMatchF : Nat → List Char → List Char → Bool
  | 0, _, _ => false
  | _ + 1, [], s => s.isEmpty
  | f + 1, '*' :: p, s =>
    globMatchF f p s ||
      (match s with
        | [] => false
        | _ :: s' => globMatchF f ('*' :: p) s')
  | f + 1, '?' :: p, s =>
    (match s with
      | [] => false
      | _ :: s' => globMatchF f p s')
  | f + 1, '[' :: p, s =>
    (match splitClass p with
      | none =>
        -- unmatched '[' is a literal
        (match s with
          | [] => false
          | c :: s' => c = '[' && globMatchF f p s')
      | some (neg, body, rest) =>
        (match s with
          | [] => false
          | c :: s' => (inClassItems (classItems body) c != neg) && globMatchF f rest s'))
  | f + 1, c :: p, s =>
    (match s with
      | [] => false
      | d :: s' => c = d && globMatchF f p s')

/-- `fnmatch`-style glob matching (pattern, then name). -/
def globMatch (p s : List Char) : Bool :=
  globMatchF (p.length + s.length + 1) p s

/-! ## Regular expressions (file_filter._match_regex)

`re.compile(pattern)` followed by an unanchored `search` over the full path
string.  The model supports the regex subset actually exercised by this
repository's filters: literal characters, `.` (any character except
newline), escaped punctuation, character classes with `^`-negation and
ranges, grouping, alternation and the `*` / `+` / `?` quantifiers.
Constructs outside the subset (counted repeats, anchors, alphanumeric
escapes, `(?...)` extensions, double quantifiers) are reported as
compilation failures, which only widens the `FilterError` case and never
mis-evaluates a supported pattern.  Matching is by Brzozowski derivatives;
`search` succeeds iff some substring matches. -/

inductive Regex where
  | fail : Regex
  | eps : Regex
  | lit : Char → Regex
  | dot : Regex
  | cls : Bool → List (Char × Char) → Regex
  | alt : Regex → Regex → Regex
  | cat : Regex → Regex → Regex
  | star : Regex → Regex
  deriving DecidableEq, Repr

/-- Does the regex accept the empty string? -/
def Regex.nullable : Regex → Bool
  | .fail => false
  | .eps => true
  | .lit _ => false
  | .dot => false
  | .cls _ _ => false
  | .alt a b => a.nullable || b.nullable
  | .cat a b => a.nullable && b.nullable
  | .star _ => true

/-- Brzozowski derivative with respect to one character. -/
def Regex.deriv : Regex → Char → Regex
  | .fail, _ => .fail
  | .eps, _ => .fail
  | .lit c, d => if c = d then .eps else .fail
  | .dot, d => if d = '\n' then .fail else .eps
  | .cls neg items, d => if inClassItems items d != neg then .eps else .fail
  | .alt a b, d => .alt (a.deriv d) (b.deriv d)
  | .cat a b, d =>
    if a.nullable then .alt (.cat (a.deriv d) b) (b.deriv d)
    else .cat (a.deriv d) b
  | .star r, d => .cat (r.deriv d) (.star r)

/-- Does some prefix of `s` match `r`? -/
def matchSomePrefix (r : Regex) : List Char → Bool
  | [] => r.nullable
  | c :: cs => r.nullable || matchSomePrefix (r.deriv c) cs

/-- `re.search`: does the pattern match starting at some position? -/
def reSearch (r : Regex) : List Char → Bool
  | [] => matchSomePrefix r []
  | c :: cs => matchSomePrefix r (c :: cs) || reSearch r cs

/-- Parse the body of a regex character class (after `[`, with `^` already
consumed): a leading `]` is a literal member; scan up to the closing `]`
(`re.error` if unterminated) and decode `a-b` ranges. -/
def parseClassBody (neg : Bool) (cs : List Char) : Except String (Regex × List Char) :=
  match (match cs with
         | ']' :: t => scanClass [']'] t
         | t => scanClass [] t) with
  | none => .error "unterminated character set"
  | some (body, rest) => .ok (.cls neg (classItems body), rest)

/-- Parser nonterminals: alternation, concatenation, quantified atom, atom. -/
inductive PMode where
  | alt | seq | atomPost | atom
  deriving DecidableEq, Repr

/-- Recursive-descent parser for the modelled regex subset, written as one
function structurally recursive on fuel so that it evaluates inside the
kernel.  `alt` parses `seq ('|' seq)*`; `seq` parses quantified atoms up to
`|`, `)` or the end; `atomPost` parses one atom plus an optional `*`, `+` or
`?` (a second quantifier in a row is `re.error "multiple repeat"`); `atom`
parses a literal, `.`, an escaped punctuation character, a class or a
parenthesised group. -/
def parseR (fuel : Nat) (m : PMode) (cs : List Char) : Except String (Regex × List Char) :=
  match fuel with
  | 0 => .error "pattern too large for the model"
  | fuel + 1 =>
    match m with
    | .alt =>
      match parseR fuel .seq cs with
      | .error e => .error e
      | .ok (r, rest) =>
        match rest with
        | '|' :: t =>
          match parseR fuel .alt t with
          | .error e => .error e
          | .ok (r2, rest2) => .ok (.alt r r2, rest2)
        | _ => .ok (r, rest)
    | .seq =>
      match cs with
      | [] => .ok (.eps, [])
      | ')' :: _ => .ok (.eps, cs)
      | '|' :: _ => .ok (.eps, cs)
      | _ =>
        match parseR fuel .atomPost cs with
        | .error e => .error e
        | .ok (a, rest) =>
          match parseR fuel .seq rest with
          | .error e => .error e
          | .ok (b, rest2) => .ok (.cat a b, rest2)
    | .atomPost =>
      match parseR fuel .atom cs with
      | .error e => .error e
      | .ok (a, rest) =>
        match rest with
        | '*' :: t =>
          match t with
          | '*' :: _ => .error "multiple repeat"
          | '+' :: _ => .error "multiple repeat"
          | '?' :: _ => .error "lazy quantifiers are outside the modelled subset"
          | _ => .ok (.star a, t)
        | '+' :: t =>
          match t with
          | '*' :: _ => .error "multiple repeat"
          | '+' :: _ => .error "multiple repeat"
          | '?' :: _ => .error "lazy quantifiers are outside the modelled subset"
          | _ => .ok (.cat a (.star a), t)
        | '?' :: t =>
          match t with
          | '*' :: _ => .error "multiple repeat"
          | '+' :: _ => .error "multiple repeat"
          | '?' :: _ => .error "lazy quantifiers are outside the modelled subset"
          | _ => .ok (.alt a .eps, t)
        | _ => .ok (a, rest)
    | .atom =>
      match cs with
      | [] => .error "nothing to parse"
      | '(' :: t =>
        match t with
        | '?' :: _ => .error "group extensions are outside the modelled subset"
        | _ =>
          match parseR fuel .alt t with
          | .error e => .error e
          | .ok (r, rest) =>
            match rest with
            | ')' :: t2 => .ok (r, t2)
            | _ => .error "missing ), unterminated subpattern"
      | '[' :: t =>
        match t with
        | '^' :: t2 => parseClassBody true t2
        | _ => parseClassBody false t
      | '\\' :: t =>
        match t with
        | [] => .error "bad escape (end of pattern)"
        | c :: t2 =>
          if c.isAlphanum then .error "escape sequences are outside the modelled subset"
          else .ok (.lit c, t2)
      | '.' :: t => .ok (.dot, t)
      | '*' :: _ => .error "nothing to repeat"
      | '+' :: _ => .error "nothing to repeat"
      | '?' :: _ => .error "nothing to repeat"
      | '^' :: _ => .error "anchors are outside the modelled subset"
      | '$' :: _ => .error "anchors are outside the modelled subset"
      | '{' :: _ => .error "counted repeats are outside the modelled subset"
      | ')' :: _ => .error "unbalanced parenthesis"
      | '|' :: _ => .error "nothing to alternate"
      | c :: t => .ok (.lit c, t)

/-- `re.compile` for the modelled subset: parse the whole pattern. -/
def regexCompile (pat : String) : Except String Regex :=
  match parseR (8 * pat.length + 8) .alt pat.data with
  | .error e => .error e
  | .ok (r, []) => .ok r
  | .ok (_, _ :: _) => .error "unbalanced parenthesis"

/-! ## file_filter.py -/

/-- `PatternConfig.pattern_type` (the constructor rejects anything except
`"regex"` and `"glob"`). -/
inductive PatternType where
  | regex | glob
  deriving DecidableEq, Repr

/-- The string Python formats the pattern type as. -/
def PatternType.str : PatternType → String
  | .regex => "regex"
  | .glob => "glob"

/-- `PatternConfig`. -/
structure PatternConfig where
  pattern : String
  pattern_type : PatternType
  deriving DecidableEq, Repr

/-- `FileFilter._match_regex`: compile, then unanchored search over
`str(filepath)`; a compile failure is a `FilterError`. -/
def match_regex (pattern : String) (filepath : PosixPath) : Except String Bool :=
  match regexCompile pattern with
  | .error e => .error ("Invalid regex pattern: " ++ e)
  | .ok r => .ok (reSearch r (pathStr filepath).data)

/-- `FileFilter._match_glob`: `fnmatch.fnmatch(filepath.name, pattern)`. -/
def match_glob (pattern : String) (filepath : PosixPath) : Bool :=
  globMatch pattern.data (pathName filepath).data

/-- The result `FileFilter.match` computes when the memo has no entry. -/
def matchPure (filepath : PosixPath) (pc : PatternConfig) : Except String Bool :=
  match pc.pattern_type with
  | .regex => match_regex pc.pattern filepath
  | .glob => .ok (match_glob pc.pattern filepath)

/-- The Boolean value of `matchPure` when it succeeds. -/
def matchPureB (filepath : PosixPath) (pc : PatternConfig) : Bool :=
  (matchPure filepath pc).toOption.getD false

/-- `cache_key = f"{filepath}:{pattern_config.pattern}:{pattern_config.pattern_type}"`:
a colon-joined string, not a real triple. -/
def cacheKey (filepath : PosixPath) (pc : PatternConfig) : String :=
  pathStr filepath ++ ":" ++ pc.pattern ++ ":" ++ pc.pattern_type.str

/-- The memo: insertion-ordered association list modelling the Python dict
(keys are inserted only when absent, so first-match lookup is faithful). -/
abbrev Cache := List (String × Bool)

def cacheLookup : Cache → String → Option Bool
  | [], _ => none
  | (k, v) :: rest, key => if k = key then some v else cacheLookup rest key

/-- `FileFilter.match` with the memo threaded through. -/
def matchCached (cache : Cache) (filepath : PosixPath) (pc : PatternConfig) :
    Except String (Bool × Cache) :=
  match cacheLookup cache (cacheKey filepath pc) with
  | some v => .ok (v, cache)
  | none =>
    match matchPure filepath pc with
    | .error e => .error e
    | .ok v => .ok (v, (cacheKey filepath pc, v) :: cache)

/-- The inner loop of `filter_files`: try the patterns in order, keeping the
path on the first match (logical OR with short-circuit). -/
def anyMatchE (cache : Cache) (filepath : PosixPath) :
    List PatternConfig → Except String (Bool × Cache)
  | [] => .ok (false, cache)
  | pc :: rest =>
    match matchCached cache filepath pc with
    | .error e => .error e
    | .ok (v, c') => if v then .ok (true, c') else anyMatchE c' filepath rest

/-- The outer loop of `filter_files` over the paths. -/
def filterFilesE (cache : Cache) (patterns : List PatternConfig) :
    List PosixPath → Except String (List PosixPath × Cache)
  | [] => .ok ([], cache)
  | p :: ps =>
    match anyMatchE cache p patterns with
    | .error e => .error e
    | .ok (v, c') =>
      match filterFilesE c' patterns ps with
      | .error e => .error e
      | .ok (rest, c'') => .ok (if v then p :: rest else rest, c'')

/-- `FileFilter.filter_files`: an empty pattern list returns the input list
unchanged; otherwise the kept paths are collected in order. -/
def filter_files (cache : Cache) (filepaths : List PosixPath)
    (patterns : List PatternConfig) : Except String (List PosixPath × Cache) :=
  if patterns.isEmpty then .ok (filepaths, cache)
  else filterFilesE cache patterns filepaths

/-- `FileFilter.invalidate_cache`. -/
def invalidate_cache : Cache := []

/-- A nullable regex is found by `search` at the start of any string. -/
theorem reSearch_of_nullable (r : Regex) (h : r.nullable = true) :
    ∀ s : List Char, reSearch r s = true := by
  intro s
  cases s with
  | nil => simp [reSearch, matchSomePrefix, h]
  | cons c cs => simp [reSearch, matchSomePrefix, h]

theorem string_beq_empty (s : String) : (s == "") = s.data.isEmpty := by
  cases s with
  | mk l =>
    cases l with
    | nil => rfl
    | cons c t => rfl

/-- C8 counterexample: the claim says the empty glob matches no path, but it
matches the root path `Path("/")`, whose `name` is the empty string
(`fnmatch.fnmatch("", "")` is true). -/
theorem c8_empty_glob_counterexample :
    matchPure (PosixPath.mk true []) (PatternConfig.mk "" PatternType.glob) = .ok true := rfl

/-- C8 amended: the empty regex matches every path; the empty glob matches
exactly the paths whose final name component is empty (such as the root) and
returns false for every other path. -/
theorem c8_empty_patterns (p : PosixPath) :
    matchPure p (PatternConfig.mk "" PatternType.regex) = .ok true ∧
    matchPure p (PatternConfig.mk "" PatternType.glob) = .ok (pathName p == "") := by
  constructor
  · show match_regex "" p = .ok true
    unfold match_regex
    rw [show regexCompile "" = .ok Regex.eps from rfl]
    show Except.ok (reSearch Regex.eps (pathStr p).data) = Except.ok true
    rw [reSearch_of_nullable Regex.eps rfl]
  · show Except.ok (match_glob "" p) = .ok (pathName p == "")
    rw [string_beq_empty]
    rfl

/-! ## C6/C7 machinery: cache invariants, replay, collisions -/

theorem cacheLookup_mem (c : Cache) (k : String) (v : Bool)
    (h : cacheLookup c k = some v) : (k, v) ∈ c := by
  induction c with
  | nil => simp [cacheLookup] at h
  | cons kv rest ih =>
    obtain ⟨k', v'⟩ := kv
    by_cases hk : k' = k
    · subst hk
      simp only [cacheLookup, if_pos rfl] at h
      injection h with h
      subst h
      exact List.mem_cons_self _ _
    · simp only [cacheLookup, if_neg hk] at h
      exact List.mem_cons_of_mem _ (ih h)

/-- Every memo entry was stored by some earlier query over the given path
and pattern universe, with the value `match` computed for that query. -/
def CacheFrom (paths : List PosixPath) (pats : List PatternConfig) (c : Cache) : Prop :=
  ∀ kv ∈ c, ∃ p, p ∈ paths ∧ ∃ pc, pc ∈ pats ∧ cacheKey p pc = kv.1 ∧ matchPure p pc = .ok kv.2

theorem matchCached_spec (paths : List PosixPath) (pats : List PatternConfig)
    (p : PosixPath) (pc : PatternConfig) (c : Cache)
    (hp : p ∈ paths) (hpc : pc ∈ pats)
    (hvalid : ∀ q ∈ paths, ∀ qc ∈ pats, (matchPure q qc).isOk = true)
    (hcons : ∀ q ∈ paths, ∀ qc ∈ pats, ∀ q' ∈ paths, ∀ qc' ∈ pats,
      cacheKey q qc = cacheKey q' qc' → matchPure q qc = matchPure q' qc')
    (hinv : CacheFrom paths pats c) :
    ∃ c', matchCached c p pc = .ok (matchPureB p pc, c') ∧ CacheFrom paths pats c' := by
  unfold matchCached
  cases hl : cacheLookup c (cacheKey p pc) with
  | some v =>
    obtain ⟨p', hp', pc', hpc', hkey, hval⟩ :=
      hinv (cacheKey p pc, v) (cacheLookup_mem _ _ _ hl)
    have heq : matchPure p pc = matchPure p' pc' :=
      hcons p hp pc hpc p' hp' pc' hpc' hkey.symm
    have hvB : matchPureB p pc = v := by
      unfold matchPureB
      rw [heq, hval]
      rfl
    exact ⟨c, by rw [hvB], hinv⟩
  | none =>
    have hOk := hvalid p hp pc hpc
    cases hv : matchPure p pc with
    | error e => rw [hv] at hOk; simp [Except.isOk, Except.toBool] at hOk
    | ok v =>
      have hvB : matchPureB p pc = v := by
        unfold matchPureB
        rw [hv]
        rfl
      refine ⟨(cacheKey p pc, v) :: c, by rw [hvB], ?_⟩
      intro kv hkv
      rcases List.mem_cons.1 hkv with h | h
      · subst h
        exact ⟨p, hp, pc, hpc, rfl, hv⟩
      · exact hinv kv h

theorem anyMatchE_spec (paths : List PosixPath) (pats : List PatternConfig)
    (p : PosixPath) (hp : p ∈ paths)
    (hvalid : ∀ q ∈ paths, ∀ qc ∈ pats, (matchPure q qc).isOk = true)
    (hcons : ∀ q ∈ paths, ∀ qc ∈ pats, ∀ q' ∈ paths, ∀ qc' ∈ pats,
      cacheKey q qc = cacheKey q' qc' → matchPure q qc = matchPure q' qc') :
    ∀ (pats' : List PatternConfig), (∀ qc ∈ pats', qc ∈ pats) → ∀ (c : Cache),
      CacheFrom paths pats c →
      ∃ c', anyMatchE c p pats' = .ok (pats'.any (fun pc => matchPureB p pc), c') ∧
        CacheFrom paths pats c' := by
  intro pats'
  induction pats' with
  | nil => exact fun _ c hinv => ⟨c, rfl, hinv⟩
  | cons pc rest ih =>
    intro hsub c hinv
    obtain ⟨c1, hm, hinv1⟩ :=
      matchCached_spec paths pats p pc c hp (hsub pc (List.mem_cons_self _ _)) hvalid hcons hinv
    cases hb : matchPureB p pc with
    | true =>
      refine ⟨c1, ?_, hinv1⟩
      simp only [anyMatchE, hm, hb, List.any_cons, Bool.true_or, if_true]
    | false =>
      obtain ⟨c2, hr, hinv2⟩ := ih (fun qc hqc => hsub qc (List.mem_cons_of_mem _ hqc)) c1 hinv1
      refine ⟨c2, ?_, hinv2⟩
      simp only [anyMatchE, hm, hb, List.any_cons, Bool.false_or, Bool.false_eq_true,
        if_false, hr]

theorem filterFilesE_spec (paths : List PosixPath) (pats : List PatternConfig)
    (hvalid : ∀ q ∈ paths, ∀ qc ∈ pats, (matchPure q qc).isOk = true)
    (hcons : ∀ q ∈ paths, ∀ qc ∈ pats, ∀ q' ∈ paths, ∀ qc' ∈ pats,
      cacheKey q qc = cacheKey q' qc' → matchPure q qc = matchPure q' qc') :
    ∀ (paths' : List PosixPath), (∀ q ∈ paths', q ∈ paths) → ∀ (c : Cache),
      CacheFrom paths pats c →
      ∃ c', filterFilesE c pats paths' =
          .ok (paths'.filter (fun p => pats.any (fun pc => matchPureB p pc)), c') ∧
        CacheFrom paths pats c' := by
  intro paths'
  induction paths' with
  | nil => exact fun _ c hinv => ⟨c, rfl, hinv⟩
  | cons p rest ih =>
    intro hsub c hinv
    obtain ⟨c1, ha, hinv1⟩ :=
      anyMatchE_spec paths pats p (hsub p (List.mem_cons_self _ _)) hvalid hcons
        pats (fun qc hqc => hqc) c hinv
    obtain ⟨c2, hr, hinv2⟩ := ih (fun q hq => hsub q (List.mem_cons_of_mem _ hq)) c1 hinv1
    refine ⟨c2, ?_, hinv2⟩
    cases hany : pats.any (fun pc => matchPureB p pc) with
    | true =>
      simp only [filterFilesE, ha, hany, hr, List.filter_cons, if_true]
    | false =>
      simp only [filterFilesE, ha, hany, hr, List.filter_cons, Bool.false_eq_true, if_false]

deriving instance DecidableEq for Except

/-- C6 counterexample: from a fresh (invalidated) memo, filtering the paths
`["x", "x:y"]` with glob patterns `["y:*", "*"]` keeps only `"x"`, although
`"*"` matches `"x:y"`: the query `("x", "y:*")` stores key `"x:y:*:glob"`,
which the later query `("x:y", "*")` reads back as a stale `False`.  So
`filter` does not always return exactly the paths with a matching pattern. -/
theorem c6_filter_collision_counterexample :
    (filter_files invalidate_cache
        [PosixPath.mk false ["x"], PosixPath.mk false ["x:y"]]
        [PatternConfig.mk "y:*" PatternType.glob,
          PatternConfig.mk "*" PatternType.glob]).toOption.map Prod.fst
      = some [PosixPath.mk false ["x"]] ∧
    ([PosixPath.mk false ["x"], PosixPath.mk false ["x:y"]].filter
        (fun p => [PatternConfig.mk "y:*" PatternType.glob,
          PatternConfig.mk "*" PatternType.glob].any (fun pc => matchPureB p pc)))
      = [PosixPath.mk false ["x"], PosixPath.mk false ["x:y"]] ∧
    (some [PosixPath.mk false ["x"]] : Option (List PosixPath))
      ≠ some [PosixPath.mk false ["x"], PosixPath.mk false ["x:y"]] :=
  ⟨by decide, by decide, by decide⟩

/-- C6 amended: an empty pattern list returns the input unchanged; and from
a fresh (invalidated) memo, provided the patterns compile and no two
distinct (path, pattern) queries collide on the colon-joined cache key with
different match values, `filter_files` returns exactly the paths matched by
at least one pattern, in input order. -/
theorem c6_filter_files (paths : List PosixPath) (pats : List PatternConfig) (c : Cache) :
    filter_files c paths [] = .ok (paths, c) ∧
    (pats ≠ [] →
      (∀ q ∈ paths, ∀ qc ∈ pats, (matchPure q qc).isOk = true) →
      (∀ q ∈ paths, ∀ qc ∈ pats, ∀ q' ∈ paths, ∀ qc' ∈ pats,
        cacheKey q qc = cacheKey q' qc' → matchPure q qc = matchPure q' qc') →
      ∃ c', filter_files invalidate_cache paths pats =
        .ok (paths.filter (fun p => pats.any (fun pc => matchPureB p pc)), c')) := by
  constructor
  · simp [filter_files]
  · intro hne hvalid hcons
    obtain ⟨c', hc', _⟩ := filterFilesE_spec paths pats hvalid hcons paths (fun q hq => hq)
      invalidate_cache (by intro kv hkv; simp [invalidate_cache] at hkv)
    refine ⟨c', ?_⟩
    have hemp : pats.isEmpty = false := by
      cases pats with
      | nil => exact absurd rfl hne
      | cons a l => rfl
    simp only [filter_files, hemp, Bool.false_eq_true, if_false]
    exact hc'

/-- Witness for C6 (amended) on collision-free inputs. -/
theorem c6_filter_files_witness :
    ∃ c', filter_files invalidate_cache
        [PosixPath.mk false ["a", "b.txt"], PosixPath.mk false ["c.dat"]]
        [PatternConfig.mk "*.txt" PatternType.glob] =
      .ok ([PosixPath.mk false ["a", "b.txt"]], c') := by
  obtain ⟨c', hc⟩ := (c6_filter_files
      [PosixPath.mk false ["a", "b.txt"], PosixPath.mk false ["c.dat"]]
      [PatternConfig.mk "*.txt" PatternType.glob] []).2
    (by decide) (by decide) (by decide)
  exact ⟨c', by rw [hc]; rfl⟩

/-! ## C7: idempotence via cache replay -/

/-- Every association present in `c` is present with the same value in `c'`. -/
def cacheLe (c c' : Cache) : Prop :=
  ∀ k v, cacheLookup c k = some v → cacheLookup c' k = some v

theorem cacheLe_refl (c : Cache) : cacheLe c c := fun _ _ h => h

theorem cacheLe_trans {a b c : Cache} (h1 : cacheLe a b) (h2 : cacheLe b c) :
    cacheLe a c := fun k v h => h2 k v (h1 k v h)

theorem matchCached_ok_le (c : Cache) (p : PosixPath) (pc : PatternConfig)
    (v : Bool) (c' : Cache) (h : matchCached c p pc = .ok (v, c')) : cacheLe c c' := by
  unfold matchCached at h
  cases hl : cacheLookup c (cacheKey p pc) with
  | some w =>
    rw [hl] at h
    injection h with h
    simp only [Prod.mk.injEq] at h
    rw [← h.2]
    exact cacheLe_refl c
  | none =>
    rw [hl] at h
    cases hm : matchPure p pc with
    | error e => rw [hm] at h; exact absurd h (by simp)
    | ok w =>
      rw [hm] at h
      injection h with h
      simp only [Prod.mk.injEq] at h
      rw [← h.2]
      intro k v0 hk
      have hne : ¬ cacheKey p pc = k := by
        intro hkey
        rw [hkey] at hl
        rw [hl] at hk
        exact absurd hk (by simp)
      simpa [cacheLookup, if_neg hne] using hk

theorem matchCached_ok_lookupAfter (c : Cache) (p : PosixPath) (pc : PatternConfig)
    (v : Bool) (c' : Cache) (h : matchCached c p pc = .ok (v, c')) :
    cacheLookup c' (cacheKey p pc) = some v := by
  unfold matchCached at h
  cases hl : cacheLookup c (cacheKey p pc) with
  | some w =>
    rw [hl] at h
    injection h with h
    simp only [Prod.mk.injEq] at h
    rw [← h.2, hl, h.1]
  | none =>
    rw [hl] at h
    cases hm : matchPure p pc with
    | error e => rw [hm] at h; exact absurd h (by simp)
    | ok w =>
      rw [hm] at h
      injection h with h
      simp only [Prod.mk.injEq] at h
      rw [← h.2]
      simp [cacheLookup, h.1]

theorem matchCached_replay (c d : Cache) (p : PosixPath) (pc : PatternConfig)
    (v : Bool) (c' : Cache) (h : matchCached c p pc = .ok (v, c'))
    (hle : cacheLe c' d) : matchCached d p pc = .ok (v, d) := by
  have hl := hle _ _ (matchCached_ok_lookupAfter c p pc v c' h)
  unfold matchCached
  rw [hl]

theorem anyMatchE_ok_le (p : PosixPath) (pats : List PatternConfig) :
    ∀ (c : Cache) (v : Bool) (c' : Cache),
      anyMatchE c p pats = .ok (v, c') → cacheLe c c' := by
  induction pats with
  | nil =>
    intro c v c' h
    injection h with h
    simp only [Prod.mk.injEq] at h
    rw [← h.2]
    exact cacheLe_refl c
  | cons pc rest ih =>
    intro c v c' h
    unfold anyMatchE at h
    cases hm : matchCached c p pc with
    | error e => rw [hm] at h; exact absurd h (by simp)
    | ok wc =>
      obtain ⟨w, c1⟩ := wc
      rw [hm] at h
      have hle1 := matchCached_ok_le c p pc w c1 hm
      cases w with
      | true =>
        simp only [if_true] at h
        injection h with h
        simp only [Prod.mk.injEq] at h
        rw [← h.2]
        exact hle1
      | false =>
        simp only [Bool.false_eq_true, if_false] at h
        exact cacheLe_trans hle1 (ih c1 v c' h)

theorem anyMatchE_replay (p : PosixPath) (pats : List PatternConfig) :
    ∀ (c : Cache) (v : Bool) (c' d : Cache),
      anyMatchE c p pats = .ok (v, c') → cacheLe c' d →
      anyMatchE d p pats = .ok (v, d) := by
  induction pats with
  | nil =>
    intro c v c' d h _
    injection h with h
    simp only [Prod.mk.injEq] at h
    rw [← h.1]
    rfl
  | cons pc rest ih =>
    intro c v c' d h hle
    unfold anyMatchE at h
    cases hm : matchCached c p pc with
    | error e => rw [hm] at h; exact absurd h (by simp)
    | ok wc =>
      obtain ⟨w, c1⟩ := wc
      rw [hm] at h
      cases w with
      | true =>
        simp only [if_true] at h
        injection h with h
        simp only [Prod.mk.injEq] at h
        have hc1d : cacheLe c1 d := by
          rw [h.2]
          exact hle
        have hm' := matchCached_replay c d p pc true c1 hm hc1d
        unfold anyMatchE
        rw [hm', ← h.1]
        simp
      | false =>
        simp only [Bool.false_eq_true, if_false] at h
        have hc1d : cacheLe c1 d :=
          cacheLe_trans (anyMatchE_ok_le p rest c1 v c' h) hle
        have hm' := matchCached_replay c d p pc false c1 hm hc1d
        unfold anyMatchE
        rw [hm']
        simp only [Bool.false_eq_true, if_false]
        exact ih c1 v c' d h hle

theorem filterFilesE_ok_le (pats : List PatternConfig) :
    ∀ (paths : List PosixPath) (c : Cache) (r : List PosixPath) (c' : Cache),
      filterFilesE c pats paths = .ok (r, c') → cacheLe c c' := by
  intro paths
  induction paths with
  | nil =>
    intro c r c' h
    injection h with h
    simp only [Prod.mk.injEq] at h
    rw [← h.2]
    exact cacheLe_refl c
  | cons p rest ih =>
    intro c r c' h
    unfold filterFilesE at h
    cases ha : anyMatchE c p pats with
    | error e =>
      simp only [ha] at h
      exact absurd h (by simp)
    | ok vc =>
      obtain ⟨v, c1⟩ := vc
      simp only [ha] at h
      cases hr : filterFilesE c1 pats rest with
      | error e =>
        simp only [hr] at h
        exact absurd h (by simp)
      | ok rc =>
        obtain ⟨r2, c2⟩ := rc
        simp only [hr, Prod.mk.injEq, Except.ok.injEq] at h
        have hle1 := anyMatchE_ok_le p pats c v c1 ha
        have hle2 := ih c1 r2 c2 hr
        rw [← h.2]
        exact cacheLe_trans hle1 hle2

theorem filterFilesE_replay (pats : List PatternConfig) :
    ∀ (paths : List PosixPath) (c : Cache) (r : List PosixPath) (c' d : Cache),
      filterFilesE c pats paths = .ok (r, c') → cacheLe c' d →
      filterFilesE d pats paths = .ok (r, d) := by
  intro paths
  induction paths with
  | nil =>
    intro c r c' d h _
    injection h with h
    simp only [Prod.mk.injEq] at h
    rw [← h.1]
    rfl
  | cons p rest ih =>
    intro c r c' d h hle
    unfold filterFilesE at h
    cases ha : anyMatchE c p pats with
    | error e =>
      simp only [ha] at h
      exact absurd h (by simp)
    | ok vc =>
      obtain ⟨v, c1⟩ := vc
      simp only [ha] at h
      cases hr : filterFilesE c1 pats rest with
      | error e =>
        simp only [hr] at h
        exact absurd h (by simp)
      | ok rc =>
        obtain ⟨r2, c2⟩ := rc
        simp only [hr, Prod.mk.injEq, Except.ok.injEq] at h
        have hc2d : cacheLe c2 d := by
          rw [h.2]
          exact hle
        have hc1d : cacheLe c1 d :=
          cacheLe_trans (filterFilesE_ok_le pats rest c1 r2 c2 hr) hc2d
        have ha' := anyMatchE_replay p pats c v c1 d ha hc1d
        have hr' := ih c1 r2 c2 d hr hc2d
        unfold filterFilesE
        simp only [ha', hr']
        rw [← h.1]

/-- The memo as left behind by an earlier legitimate query: filtering the
path `"x"` against the glob `"y:*"` (a non-match) stores `"x:y:*:glob" ↦
false`. -/
def c7PoisonedCache : Cache :=
  ((filter_files invalidate_cache [PosixPath.mk false ["x"]]
      [PatternConfig.mk "y:*" PatternType.glob]).toOption.map Prod.snd).getD []

/-- C7 counterexample: the memo key is the colon-joined string, not the
triple — the distinct queries `("x", "y:*", glob)` and `("x:y", "*", glob)`
share the key `"x:y:*:glob"`; consequently, after the first query, filtering
`["x:y"]` with `["*"]` returns the stale `[]`, while recomputing from
scratch after `invalidate()` returns `["x:y"]`. -/
theorem c7_key_collision_counterexample :
    cacheKey (PosixPath.mk false ["x"]) (PatternConfig.mk "y:*" PatternType.glob) =
      cacheKey (PosixPath.mk false ["x:y"]) (PatternConfig.mk "*" PatternType.glob) ∧
    (PosixPath.mk false ["x"], PatternConfig.mk "y:*" PatternType.glob) ≠
      (PosixPath.mk false ["x:y"], PatternConfig.mk "*" PatternType.glob) ∧
    (filter_files c7PoisonedCache [PosixPath.mk false ["x:y"]]
        [PatternConfig.mk "*" PatternType.glob]).toOption.map Prod.fst = some [] ∧
    (filter_files invalidate_cache [PosixPath.mk false ["x:y"]]
        [PatternConfig.mk "*" PatternType.glob]).toOption.map Prod.fst =
      some [PosixPath.mk false ["x:y"]] :=
  ⟨by decide, by decide, by decide, by decide⟩

/-- C7 amended: a successful `filter_files` call is idempotent — repeating
it with identical arguments from the resulting memo state returns the same
kept paths and leaves the memo unchanged; the memo key is the colon-joined
string `path:pattern:kind`, which can coincide for distinct (path, pattern)
queries when a path or pattern contains `':'`. -/
theorem c7_filter_idempotent (c : Cache) (paths : List PosixPath)
    (pats : List PatternConfig) (r : List PosixPath) (c' : Cache)
    (h : filter_files c paths pats = .ok (r, c')) :
    filter_files c' paths pats = .ok (r, c') := by
  unfold filter_files at h ⊢
  cases hemp : pats.isEmpty with
  | true =>
    simp only [hemp, if_true] at h ⊢
    injection h with h
    simp only [Prod.mk.injEq] at h
    rw [h.1]
  | false =>
    simp only [hemp, Bool.false_eq_true, if_false] at h ⊢
    exact filterFilesE_replay pats paths c r c' c' h (cacheLe_refl c')

/-- Witness for C7 (amended) at a concrete run. -/
theorem c7_filter_idempotent_witness :
    filter_files [("a.txt:*.txt:glob", true)] [PosixPath.mk false ["a.txt"]]
        [PatternConfig.mk "*.txt" PatternType.glob] =
      .ok ([PosixPath.mk false ["a.txt"]], [("a.txt:*.txt:glob", true)]) :=
  c7_filter_idempotent invalidate_cache [PosixPath.mk false ["a.txt"]]
    [PatternConfig.mk "*.txt" PatternType.glob]
    [PosixPath.mk false ["a.txt"]] [("a.txt:*.txt:glob", true)] (by decide)

/-! ## progress_tracker.py

The tracker's shared fields (`total`, `current`, `current_file`,
`last_notify_ts`) are guarded by one lock, and the per-thread pending
counters live in `threading.local()` storage that only the owning thread
touches.  An execution is therefore modelled as a sequence of atomic
operations (`inc t` = `increment()` on thread `t`, `flush t` = `flush()` on
thread `t`); `current_file`, timestamps and callback dispatch do not affect
the counters and are omitted from the state. -/

/-- Tracker state: shared `total` / `current`, adaptive `batch_size` and
`update_interval` (seconds, as an exact rational), and the per-thread
pending counters. -/
structure Tracker where
  total : Nat
  current : Nat
  batchSize : Nat
  updateInterval : Rat
  locals : Nat → Nat

/-- `ProgressTracker()` with default arguments: `batch_size=None` gives 300,
`update_interval_sec=0.5`; counters start at zero and no thread has a
pending counter yet. -/
def freshTracker : Tracker :=
  { total := 0, current := 0, batchSize := 300, updateInterval := 1/2, locals := fun _ => 0 }

/-- `set_total(n)`: choose the adaptive parameters from `n`, reset the
shared counter and, for the calling thread only, its thread-local pending
counter. -/
def setTotalT (s : Tracker) (n : Nat) (caller : Nat) : Tracker :=
  { total := n
    current := 0
    batchSize :=
      if n ≤ 10 then 1
      else if n ≤ 100 then 10
      else if n < 1000 then 300
      else 500
    updateInterval :=
      if n ≤ 10 then 1/100
      else if n ≤ 100 then 1/10
      else if n < 1000 then 1/2
      else 1/2
    locals := Function.update s.locals caller 0 }

/-- One tracker operation, tagged with the thread that performs it. -/
inductive TOp where
  | inc (t : Nat)
  | flush (t : Nat)
  deriving DecidableEq, Repr

def TOp.thread : TOp → Nat
  | .inc t => t
  | .flush t => t

def TOp.isInc : TOp → Bool
  | .inc _ => true
  | .flush _ => false

/-- `_flush_updates()` run by thread `t`: a no-op when the pending counter
is zero, otherwise merge it into the shared counter and zero it (the
callback fan-out does not touch the counters). -/
def flushStep (s : Tracker) (t : Nat) : Tracker :=
  if s.locals t = 0 then s
  else { s with current := s.current + s.locals t, locals := Function.update s.locals t 0 }

/-- `increment()` run by thread `t`: bump the thread-local pending counter
and flush when it reaches `batch_size`. -/
def incStep (s : Tracker) (t : Nat) : Tracker :=
  let s1 := { s with locals := Function.update s.locals t (s.locals t + 1) }
  if s1.batchSize ≤ s1.locals t then flushStep s1 t else s1

def applyTOp (s : Tracker) : TOp → Tracker
  | .inc t => incStep s t
  | .flush t => flushStep s t

/-- Run a trace of operations (one interleaving of the worker threads). -/
def runT (s : Tracker) : List TOp → Tracker
  | [] => s
  | op :: rest => runT (applyTOp s op) rest

/-- Number of `increment()` calls in a trace. -/
def countIncs (trace : List TOp) : Nat :=
  (trace.filter TOp.isInc).length

/-- `_calculate_percentage_unsafe` (floats modelled as exact rationals). -/
def trackerPercentage (s : Tracker) : Rat :=
  if s.total = 0 then 0
  else min ((s.current : Rat) / (s.total : Rat) * 100) 100

/-- Every thread that appears in the trace performs a `flush` as its last
operation ("every worker must call flush() before it terminates"). -/
def wellFlushed (trace : List TOp) : Bool :=
  (trace.map TOp.thread).all (fun t =>
    match (trace.filter (fun op => op.thread = t)).getLast? with
    | some (.flush _) => true
    | _ => false)

/-! ### Counter accounting -/

/-- Sum of a function over a list of thread ids. -/
def sumOver (S : List Nat) (f : Nat → Nat) : Nat := (S.map f).sum

theorem sumOver_update (S : List Nat) (f : Nat → Nat) (t : Nat) (v : Nat)
    (hS : S.Nodup) (ht : t ∈ S) :
    sumOver S (Function.update f t v) + f t = sumOver S f + v := by
  induction S with
  | nil => simp at ht
  | cons a rest ih =>
    by_cases hat : a = t
    · subst hat
      have hnot : a ∉ rest := (List.nodup_cons.1 hS).1
      have hmap : rest.map (Function.update f a v) = rest.map f :=
        List.map_congr_left (fun x hx =>
          Function.update_noteq (fun hxa : x = a => hnot (hxa ▸ hx)) v f)
      simp only [sumOver, List.map_cons, List.sum_cons, Function.update_same, hmap]
      omega
    · have hmem : t ∈ rest := by
        rcases List.mem_cons.1 ht with h | h
        · exact absurd h.symm hat
        · exact h
      have hrec := ih (List.nodup_cons.1 hS).2 hmem
      have hua : Function.update f t v a = f a := Function.update_noteq hat v f
      simp only [sumOver, List.map_cons, List.sum_cons, hua] at hrec ⊢
      omega

theorem applyTOp_batchSize (s : Tracker) (op : TOp) :
    (applyTOp s op).batchSize = s.batchSize := by
  cases op with
  | inc t =>
    simp only [applyTOp, incStep, flushStep]
    split_ifs <;> rfl
  | flush t =>
    simp only [applyTOp, flushStep]
    split_ifs <;> rfl

theorem applyTOp_accounting (s : Tracker) (op : TOp) (S : List Nat)
    (hS : S.Nodup) (ht : op.thread ∈ S) :
    (applyTOp s op).current + sumOver S (applyTOp s op).locals
      = s.current + sumOver S s.locals + (if op.isInc then 1 else 0) := by
  cases op with
  | flush t =>
    rw [show (if (TOp.flush t).isInc = true then 1 else 0) = 0 from rfl]
    simp only [applyTOp, flushStep]
    split_ifs with h0
    · omega
    · have hupd := sumOver_update S s.locals t 0 hS ht
      dsimp only
      omega
  | inc t =>
    rw [show (if (TOp.inc t).isInc = true then 1 else 0) = 1 from rfl]
    have ht' : t ∈ S := ht
    have hupd1 := sumOver_update S s.locals t (s.locals t + 1) hS ht'
    have hflush : applyTOp s (TOp.inc t) =
        if s.batchSize ≤ s.locals t + 1 then
          { s with
              current := s.current + (s.locals t + 1)
              locals := Function.update (Function.update s.locals t (s.locals t + 1)) t 0 }
        else { s with locals := Function.update s.locals t (s.locals t + 1) } := by
      simp only [applyTOp, incStep, flushStep, Function.update_same]
      split_ifs with hbs h0
      · exact h0.elim
      · rfl
      · rfl
    rw [hflush]
    split_ifs with hbs
    · have hupd2 := sumOver_update S
          (Function.update s.locals t (s.locals t + 1)) t 0 hS ht'
      simp only [Function.update_same] at hupd2
      dsimp only
      omega
    · dsimp only
      omega

theorem countIncs_cons (op : TOp) (rest : List TOp) :
    countIncs (op :: rest) = (if op.isInc then 1 else 0) + countIncs rest := by
  cases hop : op.isInc with
  | true =>
    simp [countIncs, List.filter_cons, hop]
    omega
  | false => simp [countIncs, List.filter_cons, hop]

theorem runT_accounting (τ : List TOp) (s : Tracker) (S : List Nat)
    (hS : S.Nodup) (hsub : ∀ op ∈ τ, op.thread ∈ S) :
    (runT s τ).current + sumOver S (runT s τ).locals
      = s.current + sumOver S s.locals + countIncs τ := by
  induction τ generalizing s with
  | nil => simp [runT, countIncs]
  | cons op rest ih =>
    have hstep := applyTOp_accounting s op S hS (hsub op (List.mem_cons_self _ _))
    have hrec := ih (applyTOp s op) (fun o ho => hsub o (List.mem_cons_of_mem _ ho))
    simp only [runT, countIncs_cons]
    omega

/-! ### Per-thread counter evolution -/

/-- The effect of one operation of the owning thread on its pending
counter. -/
def stepLocal (bs l : Nat) : TOp → Nat
  | .inc _ => if bs ≤ l + 1 then 0 else l + 1
  | .flush _ => 0

def runLocal (bs l : Nat) : List TOp → Nat
  | [] => l
  | op :: rest => runLocal bs (stepLocal bs l op) rest

theorem applyTOp_locals_other (s : Tracker) (op : TOp) (t : Nat)
    (h : op.thread ≠ t) : (applyTOp s op).locals t = s.locals t := by
  cases op with
  | inc u =>
    simp only [TOp.thread] at h
    simp only [applyTOp, incStep, flushStep]
    split_ifs <;>
      simp [Function.update_noteq (fun ht : t = u => h (ht.symm)),
        Function.update_apply]
  | flush u =>
    simp only [TOp.thread] at h
    simp only [applyTOp, flushStep]
    split_ifs <;>
      simp [Function.update_noteq (fun ht : t = u => h (ht.symm)),
        Function.update_apply]

theorem applyTOp_locals_self (s : Tracker) (op : TOp) (t : Nat)
    (h : op.thread = t) :
    (applyTOp s op).locals t = stepLocal s.batchSize (s.locals t) op := by
  cases op with
  | inc u =>
    simp only [TOp.thread] at h
    subst h
    simp only [applyTOp, incStep, flushStep, stepLocal, Function.update_same]
    split_ifs with h1 h2
    · exact h2.elim
    · simp [Function.update_same]
    · simp [Function.update_same]
  | flush u =>
    simp only [TOp.thread] at h
    subst h
    simp only [applyTOp, flushStep, stepLocal]
    split_ifs with h1
    · exact h1
    · simp [Function.update_same]

theorem runT_locals (τ : List TOp) (s : Tracker) (t : Nat) :
    (runT s τ).locals t
      = runLocal s.batchSize (s.locals t) (τ.filter (fun op => op.thread = t)) := by
  induction τ generalizing s with
  | nil => rfl
  | cons op rest ih =>
    by_cases hop : op.thread = t
    · rw [show (op :: rest).filter (fun op => op.thread = t)
          = op :: rest.filter (fun op => op.thread = t) from by
        simp [List.filter_cons, hop]]
      simp only [runT, runLocal]
      rw [ih (applyTOp s op), applyTOp_batchSize, applyTOp_locals_self s op t hop]
    · rw [show (op :: rest).filter (fun op => op.thread = t)
          = rest.filter (fun op => op.thread = t) from by
        simp [List.filter_cons, hop]]
      simp only [runT]
      rw [ih (applyTOp s op), applyTOp_batchSize, applyTOp_locals_other s op t hop]

theorem runLocal_append (bs l : Nat) (xs : List TOp) (op : TOp) :
    runLocal bs l (xs ++ [op]) = stepLocal bs (runLocal bs l xs) op := by
  induction xs generalizing l with
  | nil => rfl
  | cons x rest ih =>
    simp only [List.cons_append, runLocal]
    exact ih _

theorem runLocal_last_flush (bs l : Nat) (ops : List TOp) (u : Nat)
    (h : ops.getLast? = some (.flush u)) : runLocal bs l ops = 0 := by
  have hne : ops ≠ [] := by
    intro he
    rw [he] at h
    simp at h
  have hlast : ops.getLast hne = .flush u := by
    have hq := List.getLast?_eq_getLast ops hne
    rw [hq] at h
    injection h
  rw [← List.dropLast_append_getLast hne, hlast, runLocal_append]
  rfl

/-- C3: after `set_total(n)` on a fresh tracker, any interleaving of exactly
`n` `increment()` calls over any number of threads, in which every
participating thread ends with a `flush()`, leaves `get_current()` equal to
`n`: no increment is lost or double-counted by the thread-local batching. -/
theorem c3_tracker_exact (n caller : Nat) (τ : List TOp)
    (hcount : countIncs τ = n) (hwf : wellFlushed τ = true) :
    (runT (setTotalT freshTracker n caller) τ).current = n := by
  have hloc0 : ∀ t, (setTotalT freshTracker n caller).locals t = 0 := by
    intro t
    simp only [setTotalT, freshTracker, Function.update_apply]
    split <;> rfl
  have hS : ((τ.map TOp.thread).dedup).Nodup := List.nodup_dedup _
  have hsub : ∀ op ∈ τ, op.thread ∈ (τ.map TOp.thread).dedup :=
    fun op hop => List.mem_dedup.2 (List.mem_map_of_mem _ hop)
  have hacc := runT_accounting τ (setTotalT freshTracker n caller)
    ((τ.map TOp.thread).dedup) hS hsub
  have hcur0 : (setTotalT freshTracker n caller).current = 0 := rfl
  have hsum0 : sumOver ((τ.map TOp.thread).dedup) (setTotalT freshTracker n caller).locals = 0 := by
    apply List.sum_eq_zero
    intro x hx
    obtain ⟨t, _, rfl⟩ := List.mem_map.1 hx
    exact hloc0 t
  have hsumF : sumOver ((τ.map TOp.thread).dedup) (runT (setTotalT freshTracker n caller) τ).locals = 0 := by
    apply List.sum_eq_zero
    intro x hx
    obtain ⟨t, ht, rfl⟩ := List.mem_map.1 hx
    have htm : t ∈ τ.map TOp.thread := List.mem_dedup.1 ht
    have hwf' := (List.all_eq_true.1 hwf) t htm
    rw [runT_locals, hloc0 t]
    cases hlast : (τ.filter (fun op => op.thread = t)).getLast? with
    | none =>
      rw [List.getLast?_eq_none_iff.1 hlast]
      rfl
    | some op0 =>
      cases op0 with
      | inc u =>
        rw [hlast] at hwf'
        simp at hwf'
      | flush u =>
        exact runLocal_last_flush _ _ _ u hlast
  omega

/-- Witness for C3: four increments over two worker threads, each flushing
last. -/
theorem c3_tracker_exact_witness :
    countIncs [TOp.inc 1, TOp.inc 2, TOp.inc 1, TOp.flush 1, TOp.inc 2, TOp.flush 2] = 4 ∧
    wellFlushed [TOp.inc 1, TOp.inc 2, TOp.inc 1, TOp.flush 1, TOp.inc 2, TOp.flush 2] = true ∧
    (runT (setTotalT freshTracker 4 0)
      [TOp.inc 1, TOp.inc 2, TOp.inc 1, TOp.flush 1, TOp.inc 2, TOp.flush 2]).current = 4 :=
  ⟨by decide, by decide,
    c3_tracker_exact 4 0 [TOp.inc 1, TOp.inc 2, TOp.inc 1, TOp.flush 1, TOp.inc 2, TOp.flush 2]
      (by decide) (by decide)⟩

/-- C5: `set_total(n)` resets the shared counter and selects the adaptive
parameters of the table: `n ≤ 10 → (1, 0.01 s)`, `11–100 → (10, 0.1 s)`,
`101–999 → (300, 0.5 s)`, `n ≥ 1000 → (500, 0.5 s)`. -/
theorem c5_set_total (s : Tracker) (n caller : Nat) :
    ((setTotalT s n caller).current = 0 ∧ (setTotalT s n caller).total = n) ∧
    (n ≤ 10 →
      ((setTotalT s n caller).batchSize, (setTotalT s n caller).updateInterval) = (1, 1/100)) ∧
    (11 ≤ n ∧ n ≤ 100 →
      ((setTotalT s n caller).batchSize, (setTotalT s n caller).updateInterval) = (10, 1/10)) ∧
    (101 ≤ n ∧ n ≤ 999 →
      ((setTotalT s n caller).batchSize, (setTotalT s n caller).updateInterval) = (300, 1/2)) ∧
    (1000 ≤ n →
      ((setTotalT s n caller).batchSize, (setTotalT s n caller).updateInterval) = (500, 1/2)) := by
  refine ⟨⟨rfl, rfl⟩, ?_, ?_, ?_, ?_⟩ <;>
    intro h <;>
    simp only [setTotalT] <;>
    split_ifs <;>
    first
    | rfl
    | omega

/-- Witness for C5 at the table points 1, 10, 100, 1000, 10000. -/
theorem c5_set_total_witness :
    ((setTotalT freshTracker 1 0).batchSize, (setTotalT freshTracker 1 0).updateInterval)
        = (1, 1/100) ∧
    ((setTotalT freshTracker 10 0).batchSize, (setTotalT freshTracker 10 0).updateInterval)
        = (1, 1/100) ∧
    ((setTotalT freshTracker 100 0).batchSize, (setTotalT freshTracker 100 0).updateInterval)
        = (10, 1/10) ∧
    ((setTotalT freshTracker 1000 0).batchSize, (setTotalT freshTracker 1000 0).updateInterval)
        = (500, 1/2) ∧
    ((setTotalT freshTracker 10000 0).batchSize, (setTotalT freshTracker 10000 0).updateInterval)
        = (500, 1/2) ∧
    (setTotalT freshTracker 100 0).current = 0 :=
  ⟨(c5_set_total freshTracker 1 0).2.1 (by decide),
    (c5_set_total freshTracker 10 0).2.1 (by decide),
    (c5_set_total freshTracker 100 0).2.2.1 ⟨by decide, by decide⟩,
    (c5_set_total freshTracker 1000 0).2.2.2.2 (by decide),
    (c5_set_total freshTracker 10000 0).2.2.2.2 (by decide),
    ((c5_set_total freshTracker 100 0).1).1⟩

/-! ## worker_pool.py and collection_service.py -/

/-- `MAX_WORKERS = 32`. -/
def MAX_WORKERS : Nat := 32

/-- `_calculate_optimal_workers`: `min(os.cpu_count() or 4, max(1,
total_files // 100), MAX_WORKERS)` with the host's CPU count as a
parameter. -/
def calcOptimalWorkers (cpu totalFiles : Nat) : Nat :=
  min cpu (min (max 1 (totalFiles / 100)) MAX_WORKERS)

/-- The slicing loop `for i in range(0, len(filepaths), batch_size)` with
chunk size `bsPred + 1` (callers always have a positive batch size).  The
fuel only drives structural recursion: each step drops at least one element,
so `chunksOf` below always supplies enough. -/
def chunksOfF : Nat → Nat → List α → List (List α)
  | 0, _, _ => []
  | _ + 1, _, [] => []
  | f + 1, bsPred, x :: xs =>
    ((x :: xs).take (bsPred + 1)) :: chunksOfF f bsPred ((x :: xs).drop (bsPred + 1))

def chunksOf (bsPred : Nat) (l : List α) : List (List α) := chunksOfF l.length bsPred l

/-- `_create_batches`: nothing for an empty input or zero workers;
otherwise contiguous slices of size `max(1, len(filepaths) //
num_workers)`; the final `if not batches` fallback is kept although slices
of a non-empty list are never empty. -/
def createBatches (filepaths : List α) (numWorkers : Nat) : List (List α) :=
  if filepaths.isEmpty ∨ numWorkers = 0 then []
  else
    let batchSize := max 1 (filepaths.length / numWorkers)
    let batches := chunksOf (batchSize - 1) filepaths
    if batches.isEmpty ∧ ¬filepaths.isEmpty then [filepaths] else batches

/-- The batches that actually get a worker: `execute` spawns threads only
for `worker_id < self._num_workers = min(len(batches), num_workers)`, so
batches beyond that bound are dropped. -/
def assignedBatches (cpu : Nat) (files : List α) : List (List α) :=
  let numWorkers := calcOptimalWorkers cpu files.length
  let batches := createBatches files numWorkers
  batches.take (min batches.length numWorkers)

/-- The tracker operations of one worker thread `t` over its batch: the
`try` arm increments after the file operation, and the `except Exception`
arm increments as well; the worker flushes before exiting. -/
def workerSeg (t : Nat) (ok : α → Bool) (b : List α) : List TOp :=
  b.map (fun f => if ok f then TOp.inc t else TOp.inc t) ++ [TOp.flush t]

/-- One interleaving of the spawned workers' operations, worker `i` of
batch `i` running as thread `i + 1` (any interleaving yields the same final
counter; see the accounting lemmas). -/
def poolTraceFrom (i : Nat) (ok : α → Bool) : List (List α) → List TOp
  | [] => []
  | b :: rest => workerSeg i ok b ++ poolTraceFrom (i + 1) ok rest

/-- `WorkerPool.execute`: clear the cancellation flag, compute the batches,
and — only if there are batches — call `set_total(len(filepaths))` (from
the main thread 0) and run one worker per assigned batch, joining them all.
On an empty batch list it returns before `set_total`.  Worker threads are
newly created, so their thread-local counters start at zero (dead threads'
leftovers are unreachable). -/
def executePool (stop0 : Bool) (s : Tracker) (cpu : Nat) (files : List α)
    (ok : α → Bool) : Bool × Tracker :=
  let numWorkers := calcOptimalWorkers cpu files.length
  let batches := createBatches files numWorkers
  if batches.isEmpty then (false, s)
  else
    let assigned := batches.take (min batches.length numWorkers)
    let s1 := { setTotalT s files.length 0 with locals := fun _ => 0 }
    (false, runT s1 (poolTraceFrom 1 ok assigned))

/-- `CollectionService.collect` result assembly for the counting claims:
with no kept files the zeros result is returned; otherwise the service sets
the tracker total, runs the pool, reads `current` without flushing (workers
flushed themselves) and reports `(total_files, processed_files,
failed_files) = (n, current, n - current)` — there is no separate failure
counter. -/
def collectReport (cpu : Nat) (files : List α) (ok : α → Bool) : Nat × Nat × Nat :=
  if files.isEmpty then (0, 0, 0)
  else
    let s0 := setTotalT freshTracker files.length 0
    let s1 := (executePool false s0 cpu files ok).2
    (files.length, s1.current, files.length - s1.current)

/-! ### Pool lemmas -/

theorem chunksOfF_join (fuel : Nat) : ∀ (bsPred : Nat) (l : List α), l.length ≤ fuel →
    (chunksOfF fuel bsPred l).flatten = l := by
  induction fuel with
  | zero =>
    intro bs l h
    cases l with
    | nil => rfl
    | cons x xs => simp at h
  | succ f ih =>
    intro bs l h
    cases l with
    | nil => rfl
    | cons x xs =>
      simp only [chunksOfF, List.flatten_cons]
      rw [ih bs ((x :: xs).drop (bs + 1)) ?_]
      · exact List.take_append_drop _ _
      · simp only [List.length_drop, List.length_cons] at h ⊢
        omega

theorem chunksOfF_mem (fuel : Nat) : ∀ (bsPred : Nat) (l : List α), l.length ≤ fuel →
    ∀ b ∈ chunksOfF fuel bsPred l, b.length ≤ bsPred + 1 ∧ b ≠ [] := by
  induction fuel with
  | zero =>
    intro bs l h b hb
    cases l with
    | nil => simp [chunksOfF] at hb
    | cons x xs => simp at h
  | succ f ih =>
    intro bs l h b hb
    cases l with
    | nil => simp [chunksOfF] at hb
    | cons x xs =>
      simp only [chunksOfF, List.mem_cons] at hb
      rcases hb with rfl | hb
      · constructor
        · simp [List.length_take]
        · simp [List.take_succ_cons]
      · refine ih bs ((x :: xs).drop (bs + 1)) ?_ b hb
        simp only [List.length_drop, List.length_cons] at h ⊢
        omega

theorem chunksOfF_dropLast (fuel : Nat) : ∀ (bsPred : Nat) (l : List α), l.length ≤ fuel →
    ∀ b ∈ (chunksOfF fuel bsPred l).dropLast, b.length = bsPred + 1 := by
  induction fuel with
  | zero =>
    intro bs l h b hb
    cases l with
    | nil => simp [chunksOfF] at hb
    | cons x xs => simp at h
  | succ f ih =>
    intro bs l h b hb
    cases l with
    | nil => simp [chunksOfF] at hb
    | cons x xs =>
      simp only [chunksOfF] at hb
      cases hrest : chunksOfF f bs ((x :: xs).drop (bs + 1)) with
      | nil => rw [hrest] at hb; simp at hb
      | cons r rs =>
        rw [hrest] at hb
        rw [List.dropLast_cons₂] at hb
        rcases List.mem_cons.1 hb with rfl | hb2
        · -- the head slice is full: the remainder is non-empty
          have hlong : bs + 1 < (x :: xs).length := by
            by_contra hshort
            have hdrop : (x :: xs).drop (bs + 1) = [] := by
              rw [List.drop_eq_nil_iff]
              simp only [List.length_cons] at hshort ⊢
              omega
            rw [hdrop] at hrest
            cases f with
            | zero => simp [chunksOfF] at hrest
            | succ f2 => simp [chunksOfF] at hrest
          simp only [List.length_cons] at hlong
          simp [List.length_take, List.length_cons]
          omega
        · rw [← hrest] at hb2
          refine ih bs ((x :: xs).drop (bs + 1)) ?_ b hb2
          simp only [List.length_drop, List.length_cons] at h ⊢
          omega

theorem createBatches_eq (files : List α) (w : Nat) (hne : files ≠ []) (hw : w ≠ 0) :
    createBatches files w = chunksOf (max 1 (files.length / w) - 1) files := by
  have hc : ¬(files.isEmpty = true ∨ w = 0) := by
    rintro (h | h)
    · exact hne (List.isEmpty_iff.1 h)
    · exact hw h
  have hbne : ¬((chunksOf (max 1 (files.length / w) - 1) files).isEmpty = true
      ∧ ¬files.isEmpty = true) := by
    rintro ⟨h1, _⟩
    cases files with
    | nil => exact hne rfl
    | cons x xs => simp [chunksOf, chunksOfF] at h1
  simp only [createBatches, if_neg hc, if_neg hbne]

theorem runT_batchSize (τ : List TOp) : ∀ (s : Tracker), (runT s τ).batchSize = s.batchSize := by
  induction τ with
  | nil => intro s; rfl
  | cons op rest ih =>
    intro s
    rw [runT, ih, applyTOp_batchSize]

theorem runT_append (xs ys : List TOp) : ∀ (s : Tracker),
    runT s (xs ++ ys) = runT (runT s xs) ys := by
  induction xs with
  | nil => intro s; rfl
  | cons op rest ih =>
    intro s
    simp only [List.cons_append, runT]
    exact ih _

theorem workerSeg_thread (t : Nat) (ok : α → Bool) (b : List α) :
    ∀ op ∈ workerSeg t ok b, op.thread = t := by
  intro op hop
  rcases List.mem_append.1 hop with h | h
  · obtain ⟨f, _, rfl⟩ := List.mem_map.1 h
    cases ok f <;> rfl
  · rw [List.mem_singleton.1 h]
    rfl

theorem workerSeg_countIncs (t : Nat) (ok : α → Bool) (b : List α) :
    countIncs (workerSeg t ok b) = b.length := by
  unfold workerSeg countIncs
  rw [List.filter_append]
  have h1 : (b.map (fun f => if ok f then TOp.inc t else TOp.inc t)).filter TOp.isInc
      = b.map (fun f => if ok f then TOp.inc t else TOp.inc t) := by
    rw [List.filter_eq_self]
    intro op hop
    obtain ⟨f, _, rfl⟩ := List.mem_map.1 hop
    cases ok f <;> rfl
  rw [h1]
  simp [TOp.isInc]

theorem workerSeg_getLast (t : Nat) (ok : α → Bool) (b : List α) :
    (workerSeg t ok b).getLast? = some (TOp.flush t) := by
  unfold workerSeg
  exact List.getLast?_concat _

theorem runT_workerSeg (s : Tracker) (t : Nat) (ok : α → Bool) (b : List α)
    (hloc : ∀ j, s.locals j = 0) :
    (runT s (workerSeg t ok b)).current = s.current + b.length ∧
    (∀ j, (runT s (workerSeg t ok b)).locals j = 0) := by
  have hlocals : ∀ j, (runT s (workerSeg t ok b)).locals j = 0 := by
    intro j
    rw [runT_locals]
    by_cases hj : j = t
    · subst hj
      have hfilter : (workerSeg j ok b).filter (fun op => op.thread = j) = workerSeg j ok b := by
        rw [List.filter_eq_self]
        intro op hop
        simp [workerSeg_thread j ok b op hop]
      rw [hfilter, hloc j]
      exact runLocal_last_flush _ _ _ j (workerSeg_getLast j ok b)
    · have hfilter : (workerSeg t ok b).filter (fun op => op.thread = j) = [] := by
        rw [List.filter_eq_nil_iff]
        intro op hop
        simp [workerSeg_thread t ok b op hop]
        intro hc
        exact hj hc.symm
      rw [hfilter, hloc j]
      rfl
  refine ⟨?_, hlocals⟩
  have hacc := runT_accounting (workerSeg t ok b) s [t] (by simp)
    (fun op hop => by simp [workerSeg_thread t ok b op hop])
  rw [workerSeg_countIncs] at hacc
  have h1 : sumOver [t] (runT s (workerSeg t ok b)).locals = 0 := by
    simp [sumOver, hlocals t]
  have h2 : sumOver [t] s.locals = 0 := by
    simp [sumOver, hloc t]
  omega

theorem runT_poolTraceFrom (ok : α → Bool) (batches : List (List α)) :
    ∀ (i : Nat) (s : Tracker), (∀ j, s.locals j = 0) →
      (runT s (poolTraceFrom i ok batches)).current
        = s.current + (batches.map List.length).sum := by
  induction batches with
  | nil =>
    intro i s _
    simp [poolTraceFrom, runT]
  | cons b rest ih =>
    intro i s hloc
    simp only [poolTraceFrom]
    rw [runT_append]
    obtain ⟨hcur, hlocs⟩ := runT_workerSeg s i ok b hloc
    rw [ih (i + 1) _ hlocs, hcur]
    simp only [List.map_cons, List.sum_cons]
    omega

set_option maxRecDepth 40000 in
/-- C2 counterexample: 299 files on a 2-CPU host give `num_workers = 2` and
floor batch size `299 // 2 = 149`, producing three chunks `[149, 149, 1]` —
not the claimed ceiling chunks `[150, 149]` — and `execute` spawns only
`min(3, 2) = 2` workers, so one file is never assigned to any worker. -/
theorem c2_floor_batches_counterexample :
    (createBatches (List.range 299) (calcOptimalWorkers 2 (List.range 299).length)).map
        List.length = [149, 149, 1] ∧
    (createBatches (List.range 299) (calcOptimalWorkers 2 (List.range 299).length)).map
        List.length ≠ [150, 149] ∧
    (assignedBatches 2 (List.range 299)).flatten.length = 298 ∧
    (assignedBatches 2 (List.range 299)).flatten ≠ List.range 299 :=
  ⟨by decide, by decide, by decide, by decide⟩

/-- C2 amended: `execute` partitions the input into contiguous chunks of
size `max(1, ⌊n / n_workers⌋)` (all but possibly the last exactly that
size; concatenated they restore the input), spawns one worker per chunk
only up to `min(#chunks, n_workers)`, and the tracker is incremented
exactly once per file of a spawned chunk; when `#chunks ≤ n_workers`
(so in particular whenever `n_workers` divides `n`) that covers every
enumerated file, but surplus chunks are silently dropped. -/
theorem c2_execute_batches (cpu : Nat) (files : List Nat) (ok : Nat → Bool)
    (s : Tracker) (hcpu : 1 ≤ cpu) (hne : files ≠ []) :
    (createBatches files (calcOptimalWorkers cpu files.length)).flatten = files ∧
    (∀ b ∈ createBatches files (calcOptimalWorkers cpu files.length),
      b.length ≤ max 1 (files.length / calcOptimalWorkers cpu files.length) ∧ b ≠ []) ∧
    (∀ b ∈ (createBatches files (calcOptimalWorkers cpu files.length)).dropLast,
      b.length = max 1 (files.length / calcOptimalWorkers cpu files.length)) ∧
    (assignedBatches cpu files
      = (createBatches files (calcOptimalWorkers cpu files.length)).take
          (min (createBatches files (calcOptimalWorkers cpu files.length)).length
            (calcOptimalWorkers cpu files.length))) ∧
    ((createBatches files (calcOptimalWorkers cpu files.length)).length
        ≤ calcOptimalWorkers cpu files.length →
      (assignedBatches cpu files).flatten = files) ∧
    (executePool false s cpu files ok).2.current = (assignedBatches cpu files).flatten.length := by
  have hw : calcOptimalWorkers cpu files.length ≠ 0 := by
    unfold calcOptimalWorkers MAX_WORKERS
    omega
  have hbs : max 1 (files.length / calcOptimalWorkers cpu files.length)
      = (max 1 (files.length / calcOptimalWorkers cpu files.length) - 1) + 1 := by
    omega
  have hcb := createBatches_eq files (calcOptimalWorkers cpu files.length) hne hw
  have hjoin : (createBatches files (calcOptimalWorkers cpu files.length)).flatten = files := by
    rw [hcb]
    exact chunksOfF_join _ _ _ (le_refl _)
  refine ⟨hjoin, ?_, ?_, rfl, ?_, ?_⟩
  · intro b hb
    rw [hcb] at hb
    rw [hbs]
    exact chunksOfF_mem _ _ _ (le_refl _) b hb
  · intro b hb
    rw [hcb] at hb
    rw [hbs]
    exact chunksOfF_dropLast _ _ _ (le_refl _) b hb
  · intro hle
    simp only [assignedBatches]
    rw [min_eq_left hle, List.take_length]
    exact hjoin
  · have hbne : (createBatches files (calcOptimalWorkers cpu files.length)).isEmpty = false := by
      rw [hcb]
      cases files with
      | nil => exact absurd rfl hne
      | cons x xs => rfl
    have hexec : executePool false s cpu files ok
        = (false, runT { setTotalT s files.length 0 with locals := fun _ => 0 }
            (poolTraceFrom 1 ok ((createBatches files (calcOptimalWorkers cpu files.length)).take
              (min (createBatches files (calcOptimalWorkers cpu files.length)).length
                (calcOptimalWorkers cpu files.length))))) := by
      simp only [executePool, hbne, Bool.false_eq_true, if_false]
    rw [hexec]
    have hloc : ∀ j, ({ setTotalT s files.length 0 with locals := fun _ => 0 } : Tracker).locals j = 0 :=
      fun _ => rfl
    rw [runT_poolTraceFrom ok _ 1 _ hloc]
    rw [List.length_flatten]
    simp only [assignedBatches, setTotalT]
    omega

/-- Witness for C2 (amended): three files on four CPUs give one worker and
one chunk; everything is assigned and counted. -/
theorem c2_execute_batches_witness :
    (createBatches [10, 20, 30] (calcOptimalWorkers 4 3)).flatten = [10, 20, 30] ∧
    (executePool false freshTracker 4 [10, 20, 30] (fun _ => true)).2.current
      = (assignedBatches 4 [10, 20, 30]).flatten.length := by
  have h := c2_execute_batches 4 [10, 20, 30] (fun _ => true) freshTracker
    (by decide) (by decide)
  exact ⟨h.1, h.2.2.2.2.2⟩

/-- A tracker that has already completed a 5-file job (total 5, current 5). -/
def c9PriorTracker : Tracker :=
  runT (setTotalT freshTracker 5 0)
    [TOp.inc 1, TOp.inc 1, TOp.inc 1, TOp.inc 1, TOp.inc 1, TOp.flush 1]

/-- C9 counterexample: on an empty file list `execute` returns before
calling `set_total`, so a tracker with prior state keeps it — after the
call the tracker still reports total 5, not the claimed 0. -/
theorem c9_no_set_total_counterexample :
    (executePool true c9PriorTracker 4 ([] : List Nat) (fun _ => true)).2.total = 5 ∧
    (executePool true c9PriorTracker 4 ([] : List Nat) (fun _ => true)).2.total ≠ 0 :=
  ⟨by decide, by decide⟩

/-- C9 amended: on an empty file list `execute` resets the cancellation
flag, creates no batches and returns before `tracker.set_total(0)`; the
tracker keeps its prior state, so only a fresh tracker reports total 0,
current 0 and percentage 0.0 afterwards. -/
theorem c9_empty_execute (stop0 : Bool) (s : Tracker) (cpu : Nat) (ok : Nat → Bool) :
    executePool stop0 s cpu ([] : List Nat) ok = (false, s) ∧
    (executePool stop0 freshTracker cpu ([] : List Nat) ok).2.total = 0 ∧
    (executePool stop0 freshTracker cpu ([] : List Nat) ok).2.current = 0 ∧
    trackerPercentage (executePool stop0 freshTracker cpu ([] : List Nat) ok).2 = 0 :=
  ⟨rfl, rfl, rfl, rfl⟩

/-- C1 (code behaviour at the claim's failing input): one collected file
whose file operation raises inside the worker still increments the tracker
(the `except` arm increments too), so `collect` reports `processed_files =
1` and `failed_files = 0`, where the claim requires `processed_files = 0`
and `failed_files = 1`; the code keeps no separate failure counter. -/
theorem c1_no_failed_counter :
    collectReport 4 [0] (fun _ => false) = (1, 1, 0) ∧
    collectReport 4 [0] (fun _ => false) = collectReport 4 [0] (fun _ => true) :=
  ⟨by decide, by decide⟩
